import Mathlib

/-!
Verification development for the Tape repository (Go): an LTFS zip archiver
(src/ltfs-zip-archiver/main.go and the single-source variant src/unnamed/part_000)
and an SHA-256 sidecar verifier (src/ltfs-verifier/main.go).

Shallow embedding conventions:
  - Go byte slices are `List Nat` (each element is one byte value; the code never
    depends on values being < 256, so no masking is needed).
  - Go strings are `List Char`.
  - `time.Time` values are `Int` millisecond timestamps passed explicitly to the
    functions that call `time.Now()`.
  - `float64` speed fields are modelled as `Rat`; no claim depends on their values.
  - Fallible operations return explicit result structures; the underlying sink of
    the BufferedWriter is modelled by a script `List (Option E)` of results, one
    consumed per sink write, `none` meaning success (an exhausted script means
    success, matching a sink that keeps succeeding).
-/

namespace Tape

/-! ## CoalescingWriter: `BufferedWriter` of src/unnamed/part_000 lines 146-198
(identical in src/ltfs-zip-archiver/main.go lines 146-198).

The Go struct holds a fixed-size `buffer []byte` and a fill `offset int`; only the
prefix `buffer[:offset]` is ever observable, so the state is modelled as the
capacity together with the filled prefix `buf` (so `offset = buf.length`). -/

structure BufferedWriter where
  cap : Nat
  buf : List Nat
  deriving DecidableEq

/-- Result of `BufferedWriter.Flush`: the new writer state, the slices the sink
received in this call (`[]` or one slice), the rest of the sink script, and the
error returned to the caller. -/
structure FlushResult (E : Type) where
  state : BufferedWriter
  sent : List (List Nat)
  errs : List (Option E)
  err : Option E
  deriving DecidableEq

/-- `BufferedWriter.Flush` (part_000 lines 190-198): if `offset == 0` return nil
without touching the sink; otherwise write `buffer[:offset]` to the sink in one
call, reset `offset` to 0, and return the sink's error as-is. -/
def flushBW {E : Type} (bw : BufferedWriter) (errs : List (Option E)) : FlushResult E :=
  if bw.buf = [] then ⟨bw, [], errs, none⟩
  else ⟨⟨bw.cap, []⟩, [bw.buf], errs.tail, errs.headD none⟩

/-- Result of `BufferedWriter.Write`: the new state, slices sent to the sink, the
rest of the sink script, the accepted byte count `n - remaining`, and the error. -/
structure WriteResult (E : Type) where
  state : BufferedWriter
  sent : List (List Nat)
  errs : List (Option E)
  accepted : Nat
  err : Option E
  deriving DecidableEq

/-- Loop body of `BufferedWriter.Write` (part_000 lines 161-188). `p` is the
not-yet-copied suffix of the input (`remaining = p.length`, the copied prefix has
been dropped, mirroring `srcOffset`). Each pass: if `available == 0` flush (on a
sink error, return `n - remaining` and the error unchanged), then copy
`min remaining available` bytes into the buffer. The `fuel` argument bounds the
iteration count; `fuel = p.length` suffices whenever `cap ≥ 1` (with `cap = 0`
the Go loop never terminates, which the model cuts off by returning at fuel 0). -/
def writeAux {E : Type} : Nat → BufferedWriter → List (Option E) → List Nat → WriteResult E
  | _, bw, errs, [] => ⟨bw, [], errs, 0, none⟩
  | 0, bw, errs, _ :: _ => ⟨bw, [], errs, 0, none⟩
  | fuel + 1, bw, errs, x :: xs =>
    let p := x :: xs
    if bw.cap - bw.buf.length = 0 then
      let fr := flushBW bw errs
      match fr.err with
      | some e => ⟨fr.state, fr.sent, fr.errs, 0, some e⟩
      | none =>
        let c := min p.length fr.state.cap
        let r := writeAux fuel ⟨fr.state.cap, fr.state.buf ++ p.take c⟩ fr.errs (p.drop c)
        ⟨r.state, fr.sent ++ r.sent, r.errs, c + r.accepted, r.err⟩
    else
      let c := min p.length (bw.cap - bw.buf.length)
      let r := writeAux fuel ⟨bw.cap, bw.buf ++ p.take c⟩ errs (p.drop c)
      ⟨r.state, r.sent, r.errs, c + r.accepted, r.err⟩

/-- `BufferedWriter.Write` on input slice `p` against sink script `errs`. -/
def writeBW {E : Type} (bw : BufferedWriter) (errs : List (Option E)) (p : List Nat) :
    WriteResult E :=
  writeAux p.length bw errs p

/-- A whole session against an always-succeeding sink: the sequence of
`Write` calls of main followed by the final deferred `Flush` (part_000 lines
335-342). Returns the final state and every slice the sink received, in order. -/
def writeAllAux (bw : BufferedWriter) : List (List Nat) → BufferedWriter × List (List Nat)
  | [] =>
    let fr := flushBW (E := Unit) bw []
    (fr.state, fr.sent)
  | p :: ps =>
    let r := writeBW (E := Unit) bw [] p
    let rest := writeAllAux r.state ps
    (rest.1, r.sent ++ rest.2)

/-- Fresh writer of capacity `cap` (NewBufferedWriter), fed the slices `ps`, then
flushed. -/
def writeAllBW (cap : Nat) (ps : List (List Nat)) : BufferedWriter × List (List Nat) :=
  writeAllAux ⟨cap, []⟩ ps

theorem writeAux_nil {E : Type} (fuel : Nat) (bw : BufferedWriter) (errs : List (Option E)) :
    writeAux fuel bw errs [] = ⟨bw, [], errs, 0, none⟩ := by
  cases fuel <;> rfl

theorem writeAux_cons_full {E : Type} (f : Nat) (bw : BufferedWriter)
    (errs : List (Option E)) (x : Nat) (xs : List Nat)
    (hfull : bw.cap - bw.buf.length = 0) (hne : bw.buf ≠ [])
    (herr : errs.headD none = none) :
    writeAux (f + 1) bw errs (x :: xs) =
      (let c := min (x :: xs).length bw.cap
       let r := writeAux f ⟨bw.cap, (x :: xs).take c⟩ errs.tail ((x :: xs).drop c)
       ⟨r.state, [bw.buf] ++ r.sent, r.errs, c + r.accepted, r.err⟩) := by
  simp only [writeAux, hfull, if_true, flushBW, if_neg hne, herr, List.nil_append]

theorem writeAux_cons_full_err {E : Type} (f : Nat) (bw : BufferedWriter)
    (errs : List (Option E)) (x : Nat) (xs : List Nat) (e : E)
    (hfull : bw.cap - bw.buf.length = 0) (hne : bw.buf ≠ [])
    (herr : errs.headD none = some e) :
    writeAux (f + 1) bw errs (x :: xs) =
      ⟨⟨bw.cap, []⟩, [bw.buf], errs.tail, 0, some e⟩ := by
  simp only [writeAux, hfull, if_true, flushBW, if_neg hne, herr]

theorem writeAux_cons_avail {E : Type} (f : Nat) (bw : BufferedWriter)
    (errs : List (Option E)) (x : Nat) (xs : List Nat)
    (hav : bw.cap - bw.buf.length ≠ 0) :
    writeAux (f + 1) bw errs (x :: xs) =
      (let c := min (x :: xs).length (bw.cap - bw.buf.length)
       let r := writeAux f ⟨bw.cap, bw.buf ++ (x :: xs).take c⟩ errs ((x :: xs).drop c)
       ⟨r.state, r.sent, r.errs, c + r.accepted, r.err⟩) := by
  simp only [writeAux, if_neg hav]

/-- Invariant of the `Write` loop against an always-succeeding sink: the
capacity is preserved, the fill stays within capacity, no error is reported,
every input byte is accepted, and the bytes sent to the sink followed by the
bytes still buffered are exactly the old buffer contents followed by the input. -/
theorem writeAux_success : ∀ (fuel : Nat) (bw : BufferedWriter) (p : List Nat),
    1 ≤ bw.cap → bw.buf.length ≤ bw.cap → p.length ≤ fuel →
    (writeAux (E := Unit) fuel bw [] p).state.cap = bw.cap ∧
    (writeAux (E := Unit) fuel bw [] p).state.buf.length ≤ bw.cap ∧
    (writeAux (E := Unit) fuel bw [] p).errs = [] ∧
    (writeAux (E := Unit) fuel bw [] p).err = none ∧
    (writeAux (E := Unit) fuel bw [] p).accepted = p.length ∧
    (writeAux (E := Unit) fuel bw [] p).sent.flatten ++ (writeAux (E := Unit) fuel bw [] p).state.buf
      = bw.buf ++ p := by
  intro fuel
  induction fuel with
  | zero =>
    intro bw p h1 h2 h3
    have hp : p = [] := List.length_eq_zero.mp (Nat.le_zero.mp h3)
    subst hp
    simp [writeAux_nil, h2]
  | succ f ih =>
    intro bw p h1 h2 h3
    cases p with
    | nil => simp [writeAux_nil, h2]
    | cons x xs =>
      by_cases hfull : bw.cap - bw.buf.length = 0
      · have hbufcap : bw.buf.length = bw.cap :=
          Nat.le_antisymm h2 (Nat.le_of_sub_eq_zero hfull)
        have hne : bw.buf ≠ [] := by
          intro h
          rw [h] at hbufcap
          simp at hbufcap
          omega
        simp only [writeAux_cons_full f bw [] x xs hfull hne rfl, List.tail_nil]
        set c := min (x :: xs).length bw.cap with hc
        have hxlen : (x :: xs).length = xs.length + 1 := rfl
        have hc1 : 1 ≤ c := le_min (by simp) h1
        have hcle : c ≤ (x :: xs).length := Nat.min_le_left _ _
        have hccap : c ≤ bw.cap := Nat.min_le_right _ _
        have htake : ((x :: xs).take c).length = c := by
          rw [List.length_take]
          exact Nat.min_eq_left hcle
        have hdrop : ((x :: xs).drop c).length ≤ f := by
          rw [List.length_drop]
          omega
        have hrec := ih ⟨bw.cap, (x :: xs).take c⟩ ((x :: xs).drop c)
          h1 (by simpa [htake] using hccap) hdrop
        obtain ⟨r1, r2, r3, r4, r5, r6⟩ := hrec
        refine ⟨r1, by simpa [r1] using r2, r3, r4, ?_, ?_⟩
        · rw [r5, List.length_drop]
          omega
        · simp only [List.singleton_append, List.flatten_cons]
          rw [List.append_assoc, r6]
          simp [List.take_append_drop]
      · simp only [writeAux_cons_avail f bw [] x xs hfull]
        set c := min (x :: xs).length (bw.cap - bw.buf.length) with hc
        have hxlen : (x :: xs).length = xs.length + 1 := rfl
        have hav1 : 1 ≤ bw.cap - bw.buf.length := Nat.one_le_iff_ne_zero.mpr hfull
        have hc1 : 1 ≤ c := le_min (by simp) hav1
        have hcle : c ≤ (x :: xs).length := Nat.min_le_left _ _
        have hcav : c ≤ bw.cap - bw.buf.length := Nat.min_le_right _ _
        have htake : ((x :: xs).take c).length = c := by
          rw [List.length_take]
          exact Nat.min_eq_left hcle
        have hlen2 : (bw.buf ++ (x :: xs).take c).length ≤ bw.cap := by
          rw [List.length_append, htake]
          omega
        have hdrop : ((x :: xs).drop c).length ≤ f := by
          rw [List.length_drop]
          omega
        have hrec := ih ⟨bw.cap, bw.buf ++ (x :: xs).take c⟩ ((x :: xs).drop c)
          h1 hlen2 hdrop
        obtain ⟨r1, r2, r3, r4, r5, r6⟩ := hrec
        refine ⟨r1, by simpa [r1] using r2, r3, r4, ?_, ?_⟩
        · rw [r5, List.length_drop]
          omega
        · rw [r6]
          rw [List.append_assoc, List.take_append_drop]

/-- Session-level invariant: feeding slices `ps` to a writer whose fill is within
capacity and flushing at the end sends exactly the buffered bytes followed by all
input bytes, in order. -/
theorem writeAllAux_join : ∀ (ps : List (List Nat)) (bw : BufferedWriter),
    1 ≤ bw.cap → bw.buf.length ≤ bw.cap →
    (writeAllAux bw ps).2.flatten = bw.buf ++ ps.flatten := by
  intro ps
  induction ps with
  | nil =>
    intro bw h1 h2
    by_cases hb : bw.buf = []
    · simp [writeAllAux, flushBW, hb]
    · simp [writeAllAux, flushBW, hb]
  | cons p ps ih =>
    intro bw h1 h2
    have hw := writeAux_success p.length bw p h1 h2 (Nat.le_refl _)
    obtain ⟨r1, r2, _, _, _, r6⟩ := hw
    simp only [writeAllAux, writeBW]
    rw [List.flatten_append]
    rw [ih _ (by rw [r1]; exact h1) (by rw [r1]; exact r2)]
    rw [← List.append_assoc, r6, List.append_assoc]
    simp

/-- Claim C1: for every sequence of `Write` calls into a `BufferedWriter` with a
fixed capacity of at least 1 and a sink whose writes all succeed, the
concatenation of the slices the sink receives — from the buffer-full flushes
inside `Write` plus a final explicit `Flush` — equals the concatenation of the
slices passed to `Write`, in order: no byte is reordered or dropped. -/
theorem C1_coalescing_writer_preserves_stream (cap : Nat) (ps : List (List Nat))
    (h : 1 ≤ cap) : ((writeAllBW cap ps).2).flatten = ps.flatten := by
  simpa using writeAllAux_join ps ⟨cap, []⟩ h (by simp)

theorem C1_coalescing_writer_preserves_stream_witness :
    1 ≤ 2 ∧ ((writeAllBW 2 [[1, 2, 3], [4, 5]]).2).flatten = [[1, 2, 3], [4, 5]].flatten :=
  ⟨by decide, C1_coalescing_writer_preserves_stream 2 [[1, 2, 3], [4, 5]] (by decide)⟩

/-- Claim C7: a sink error during a flush — whether from an explicit `Flush`
call or from the buffer-full flush inside `Write` — is returned to the caller
unmodified, and the buffered bytes are handed to the sink exactly once, never
retried (the fill is cleared even on error); `Flush` on an empty buffer is a
no-op that touches no state, performs no sink write, and returns no error; and
`Flush` always leaves the fill offset at zero. -/
theorem C7_flush_error_propagation :
    (∀ (E : Type) (bw : BufferedWriter) (errs : List (Option E)),
        bw.buf = [] → flushBW bw errs = ⟨bw, [], errs, none⟩) ∧
    (∀ (E : Type) (bw : BufferedWriter) (errs : List (Option E)),
        (flushBW bw errs).state.buf = []) ∧
    (∀ (E : Type) (bw : BufferedWriter) (errs : List (Option E)) (e : E),
        bw.buf ≠ [] → errs.headD none = some e →
        flushBW bw errs = ⟨⟨bw.cap, []⟩, [bw.buf], errs.tail, some e⟩) ∧
    (∀ (E : Type) (cap : Nat) (buf p : List Nat) (e : E) (rest : List (Option E)),
        1 ≤ cap → buf.length = cap → p ≠ [] →
        writeBW ⟨cap, buf⟩ (some e :: rest) p =
          ⟨⟨cap, []⟩, [buf], rest, 0, some e⟩) := by
  refine ⟨?_, ?_, ?_, ?_⟩
  · intro E bw errs hb
    simp [flushBW, hb]
  · intro E bw errs
    by_cases hb : bw.buf = [] <;> simp [flushBW, hb]
  · intro E bw errs e hb he
    unfold flushBW
    rw [if_neg hb, he]
  · intro E cap buf p e rest h1 h2 hp
    cases p with
    | nil => exact absurd rfl hp
    | cons x xs =>
      have hne : buf ≠ [] := by
        intro h
        rw [h] at h2
        simp at h2
        omega
      unfold writeBW
      rw [show (x :: xs).length = xs.length + 1 from rfl]
      exact writeAux_cons_full_err xs.length ⟨cap, buf⟩ (some e :: rest) x xs e
        (by simp [h2]) hne rfl

theorem C7_flush_error_propagation_witness :
    flushBW (E := Nat) ⟨2, []⟩ [] = ⟨⟨2, []⟩, [], [], none⟩ ∧
    flushBW (E := Nat) ⟨2, [9]⟩ [some 3] = ⟨⟨2, []⟩, [[9]], [], some 3⟩ ∧
    writeBW (E := Nat) ⟨1, [9]⟩ [some 3] [7] = ⟨⟨1, []⟩, [[9]], [], 0, some 3⟩ :=
  ⟨C7_flush_error_propagation.1 Nat ⟨2, []⟩ [] rfl,
   C7_flush_error_propagation.2.2.1 Nat ⟨2, [9]⟩ [some 3] 3 (by decide) rfl,
   C7_flush_error_propagation.2.2.2 Nat 1 [9] [7] 3 [] (by decide) (by decide) (by decide)⟩

/-! ## SequentialArchiveProducer byte accounting: scan phase of main
(src/unnamed/part_000 lines 241-258, src/ltfs-zip-archiver/main.go lines 257-276)
versus the per-file copy loops of `addFiles` (part_000 lines 376-455).

A directory tree is modelled inductively; entry names and modification times do
not affect byte accounting and are omitted. `filepath.Walk` visits every entry
of the tree; the scan phase adds `info.Size()` for every non-directory entry,
and the write phase re-walks the same (unchanged) tree and, for each regular
file, copies its bytes through a fixed 1 MiB buffer, one `writer.Write(buf[:n])`
per successful `file.Read`. -/

inductive FSTree where
  | file (content : List Nat)
  | dir (children : List FSTree)

/-- Successive `file.Read(copyBuffer)` results for a file with the given
contents: maximal chunks of `bufSize` bytes. The fuel argument (instantiated
with the content length) bounds the iteration; it is only exhausted when
`bufSize = 0`, in which case the Go loop would not terminate either. -/
def chunkReadsAux (bufSize : Nat) : Nat → List Nat → List (List Nat)
  | _, [] => []
  | 0, _ :: _ => []
  | fuel + 1, x :: xs =>
    (x :: xs).take bufSize :: chunkReadsAux bufSize fuel ((x :: xs).drop bufSize)

def chunkReads (bufSize : Nat) (content : List Nat) : List (List Nat) :=
  chunkReadsAux bufSize content.length content

mutual
/-- Scan phase (阶段 1): `totalSize += info.Size()` over every non-directory
entry found by `filepath.Walk`. -/
def scanTotalSize : FSTree → Nat
  | .file content => content.length
  | .dir children => scanTotalSizeList children

/-- Scan phase folded over a directory's children. -/
def scanTotalSizeList : List FSTree → Nat
  | [] => 0
  | t :: ts => scanTotalSize t + scanTotalSizeList ts
end

mutual
/-- Write phase (`addFiles`): bytes actually written, summed over the per-file
copy loops; each loop writes `n` bytes per read of the 1 MiB copy buffer, and
directory entries contribute no payload. -/
def writePhaseBytes : FSTree → Nat
  | .file content => ((chunkReads (1024 * 1024) content).map List.length).sum
  | .dir children => writePhaseBytesList children

/-- Write phase folded over a directory's children. -/
def writePhaseBytesList : List FSTree → Nat
  | [] => 0
  | t :: ts => writePhaseBytes t + writePhaseBytesList ts
end

theorem chunkReadsAux_len_sum (bufSize : Nat) (hb : 1 ≤ bufSize) :
    ∀ (fuel : Nat) (content : List Nat), content.length ≤ fuel →
    ((chunkReadsAux bufSize fuel content).map List.length).sum = content.length := by
  intro fuel
  induction fuel with
  | zero =>
    intro content h
    have hc : content = [] := List.length_eq_zero.mp (Nat.le_zero.mp h)
    subst hc
    rfl
  | succ f ih =>
    intro content h
    cases content with
    | nil => rfl
    | cons x xs =>
      have hxlen : (x :: xs).length = xs.length + 1 := rfl
      have hdlen : ((x :: xs).drop bufSize).length ≤ f := by
        rw [List.length_drop]
        omega
      simp only [chunkReadsAux, List.map_cons, List.sum_cons, ih _ hdlen]
      rw [List.length_take, List.length_drop]
      omega

theorem chunkReads_len_sum (bufSize : Nat) (hb : 1 ≤ bufSize) (content : List Nat) :
    ((chunkReads bufSize content).map List.length).sum = content.length :=
  chunkReadsAux_len_sum bufSize hb content.length content (Nat.le_refl _)

mutual
theorem scan_eq_writePhase : ∀ t : FSTree, scanTotalSize t = writePhaseBytes t
  | .file content => by
    rw [scanTotalSize, writePhaseBytes,
      chunkReads_len_sum (1024 * 1024) (by norm_num) content]
  | .dir children => by
    rw [scanTotalSize, writePhaseBytes, scan_eq_writePhase_list children]

theorem scan_eq_writePhase_list : ∀ ts : List FSTree,
    scanTotalSizeList ts = writePhaseBytesList ts
  | [] => rfl
  | t :: ts => by
    rw [scanTotalSizeList, writePhaseBytesList, scan_eq_writePhase t,
      scan_eq_writePhase_list ts]
end

/-- Claim C2: for every directory tree (including empty directories and
zero-byte files) that is unchanged between the two phases, the total byte count
computed by the scan phase — the sum of `info.Size()` over all non-directory
entries found by the walk — equals the sum of the byte counts written by the
write phase's per-file copy loops. -/
theorem C2_scan_total_equals_write_total (t : FSTree) :
    scanTotalSize t = writePhaseBytes t :=
  scan_eq_writePhase t

/-! ## Self-inclusion guard of the archiver main
(src/ltfs-zip-archiver/main.go lines 242-255; single-source variant
src/unnamed/part_000 lines 228-239).

`filepath.Abs` resolution is outside the model: the guard is given the already
resolved absolute destination path and absolute source root paths, as strings
(`List Char`). The guard runs before `os.Create(destFile)` (main.go line 282 /
part_000 line 264): when it fires, `log.Fatalf` exits the process, so the
destination file is never created or written. -/

/-- Go `strings.HasPrefix(s, pre)`. -/
def goStringHasPref (s pre : List Char) : Bool :=
  pre.isPrefixOf s

/-- The guard loop of main: the first source root for which
`strings.HasPrefix(absDest, absSource)` holds, if any. -/
def selfInclusionHit (absDest : List Char) (absSources : List (List Char)) :
    Option (List Char) :=
  absSources.find? (fun absSource => goStringHasPref absDest absSource)

/-- Outcome of the pre-archive steps of main: either the run is rejected with a
self-inclusion error naming the offending source root (and the destination file
is not created), or the guard passes and main goes on to scan and to create the
destination file. -/
structure GuardOutcome where
  rejected : Option (List Char)
  destCreated : Bool
  deriving DecidableEq

/-- Main up to and including `os.Create`: check every source root against the
destination; `log.Fatalf` (no create) on a hit, otherwise proceed to create. -/
def archiverGuardRun (absSources : List (List Char)) (absDest : List Char) :
    GuardOutcome :=
  match selfInclusionHit absDest absSources with
  | some s => ⟨some s, false⟩
  | none => ⟨none, true⟩

/-- The claim's notion of the destination lying inside a source root, stated on
resolved absolute paths: the destination is the root followed by a path
separator and a remainder. -/
def pathInside (absDest absSource : List Char) : Prop :=
  ∃ rest : List Char, absDest = absSource ++ '/' :: rest

theorem pathInside_hasPref (absDest absSource : List Char)
    (h : pathInside absDest absSource) : goStringHasPref absDest absSource = true := by
  obtain ⟨rest, hrest⟩ := h
  subst hrest
  simp [goStringHasPref, List.isPrefixOf_iff_prefix]

/-- Claim C3: whenever the destination file's resolved absolute path lies inside
one of the resolved source roots, the archiver rejects the run with a
self-inclusion error and never creates or writes the destination file. -/
theorem C3_self_inclusion_rejected (absSources : List (List Char))
    (absDest absSource : List Char) (hmem : absSource ∈ absSources)
    (hin : pathInside absDest absSource) :
    (archiverGuardRun absSources absDest).rejected ≠ none ∧
    (archiverGuardRun absSources absDest).destCreated = false := by
  have hfind : (selfInclusionHit absDest absSources).isSome := by
    rw [selfInclusionHit, List.find?_isSome]
    exact ⟨absSource, hmem, pathInside_hasPref absDest absSource hin⟩
  unfold archiverGuardRun
  match hcase : selfInclusionHit absDest absSources with
  | some s => exact ⟨by simp, rfl⟩
  | none => rw [hcase] at hfind; simp at hfind

theorem C3_self_inclusion_rejected_witness :
    "/data/out.zip".toList = "/data".toList ++ '/' :: "out.zip".toList ∧
    (archiverGuardRun ["/data".toList] "/data/out.zip".toList).rejected ≠ none ∧
    (archiverGuardRun ["/data".toList] "/data/out.zip".toList).destCreated = false :=
  ⟨by decide,
   C3_self_inclusion_rejected ["/data".toList] "/data/out.zip".toList "/data".toList
     (by decide) ⟨"out.zip".toList, by decide⟩⟩

/-- Claim C4: the guard decides containment by a plain string prefix test, so a
sibling destination sharing a string prefix with a source root — here source
`/data`, destination `/data2/out.zip`, which is not inside `/data` — is
nevertheless rejected with a self-inclusion error. -/
theorem C4_sibling_path_false_positive :
    ¬ pathInside "/data2/out.zip".toList "/data".toList ∧
    archiverGuardRun ["/data".toList] "/data2/out.zip".toList =
      ⟨some "/data".toList, false⟩ := by
  constructor
  · intro h
    obtain ⟨rest, hrest⟩ := h
    have h5 := congrArg (fun l => l.get? 5) hrest
    simp at h5
  · decide

/-! ## StreamingDigestComputer: src/ltfs-verifier/main.go.

`crypto/sha256` is an external library: the hash is an abstract parameter
`hashFn : List Nat → List Nat` mapping the file's bytes to the digest bytes
(`hash.Sum(nil)`; for real SHA-256 the result always has 32 bytes, so it is
nonempty). `fmt.Sprintf("%x", ...)` renders two lowercase hex characters per
digest byte. `strings.TrimSpace` / `strings.Fields` split on Unicode white
space; the model covers the Latin-1 white-space set (tab, newline, vertical
tab, form feed, carriage return, space, U+0085, U+00A0), which is exhaustive
for every character a digest or an ASCII file name can contain. -/

/-- Go `unicode.IsSpace` restricted to Latin-1. -/
def goIsSpace (c : Char) : Bool :=
  c = ' ' || c = '\t' || c = '\n' || c = Char.ofNat 0x0B || c = Char.ofNat 0x0C ||
  c = '\r' || c = Char.ofNat 0x85 || c = Char.ofNat 0xA0

/-- Go `strings.TrimSpace`: drop white space from both ends. -/
def goTrimSpace (s : List Char) : List Char :=
  ((s.dropWhile goIsSpace).reverse.dropWhile goIsSpace).reverse

/-- Accumulator loop of Go `strings.Fields`: split around runs of white space.
`acc` holds the current field, reversed. -/
def goFieldsAux : List Char → List Char → List (List Char)
  | [], acc => if acc.isEmpty then [] else [acc.reverse]
  | c :: cs, acc =>
    if goIsSpace c then
      if acc.isEmpty then goFieldsAux cs [] else acc.reverse :: goFieldsAux cs []
    else goFieldsAux cs (c :: acc)

/-- Go `strings.Fields`. -/
def goFields (s : List Char) : List (List Char) :=
  goFieldsAux s []

/-- Lowercase hex digit characters, as produced by Go `%x`. -/
def hexTable : List Char :=
  "0123456789abcdef".toList

def hexDigit (n : Nat) : Char :=
  hexTable.getD (n % 16) '0'

/-- One byte rendered by `%x`: two lowercase hex characters. -/
def byteToHex (b : Nat) : List Char :=
  [hexDigit (b / 16), hexDigit b]

/-- Go `fmt.Sprintf("%x", bs)` for a byte slice `bs`. -/
def bytesToHex (bs : List Nat) : List Char :=
  (bs.map byteToHex).flatten

/-- `generateSHA256` (main.go lines 143-173) stripped of its I/O and progress
side effects: the digest of the file bytes, rendered in lowercase hex. -/
def generateSHA256 (hashFn : List Nat → List Nat) (content : List Nat) : List Char :=
  bytesToHex (hashFn content)

/-- The sidecar record written by `generateSHA256File` (main.go line 204):
digest, two spaces, base name, newline. -/
def sidecarLine (hexDigest base : List Char) : List Char :=
  hexDigest ++ ' ' :: ' ' :: (base ++ ['\n'])

/-- A path's target on disk: missing, a directory, or a regular file with the
given bytes. -/
inductive FsEntry where
  | missing
  | dir
  | file (content : List Nat)

/-- `generateSHA256File` (main.go lines 176-217): reject a missing path or a
directory, else digest the file and write the sidecar record. The returned
value is the sidecar content written, `none` when the run failed. -/
def generateSHA256File (hashFn : List Nat → List Nat) (target : FsEntry)
    (base : List Char) : Option (List Char) :=
  match target with
  | .missing => none
  | .dir => none
  | .file content => some (sidecarLine (generateSHA256 hashFn content) base)

/-- The distinct outcomes of `verifySHA256File`; each error constructor stands
for one of the distinct Go error messages. -/
inductive VerifyResult where
  | fileNotFound
  | isDirectory
  | sidecarNotFound
  | formatErr
  | mismatch (expected actual : List Char)
  | ok
  deriving DecidableEq

/-- `verifySHA256File` (main.go lines 220-284): stat the target (missing file
and directory are rejected first), stat/read the sidecar (`none` models the
stat failing, the distinct sidecar-not-found error), parse the content with
`strings.Fields(strings.TrimSpace(content))`, reject an empty token list as a
format error, else recompute the digest and compare it for exact string
equality with the first token. -/
def verifySHA256File (hashFn : List Nat → List Nat) (target : FsEntry)
    (sidecar : Option (List Char)) : VerifyResult :=
  match target with
  | .missing => .fileNotFound
  | .dir => .isDirectory
  | .file content =>
    match sidecar with
    | none => .sidecarNotFound
    | some sc =>
      match goFields (goTrimSpace sc) with
      | [] => .formatErr
      | expectedHash :: _ =>
        let actualHash := generateSHA256 hashFn content
        if actualHash = expectedHash then .ok
        else .mismatch expectedHash actualHash

theorem hexDigit_not_space (n : Nat) : goIsSpace (hexDigit n) = false := by
  have hlt : n % 16 < 16 := Nat.mod_lt _ (by norm_num)
  have hall : ∀ m : Fin 16, goIsSpace (hexTable.getD m.val '0') = false := by decide
  exact hall ⟨n % 16, hlt⟩

theorem bytesToHex_not_space (bs : List Nat) :
    ∀ c ∈ bytesToHex bs, goIsSpace c = false := by
  intro c hc
  rw [bytesToHex, List.mem_flatten] at hc
  obtain ⟨l, hl, hcl⟩ := hc
  rw [List.mem_map] at hl
  obtain ⟨b, _, hbl⟩ := hl
  subst hbl
  simp only [byteToHex, List.mem_cons, List.not_mem_nil, or_false] at hcl
  rcases hcl with h | h <;> (rw [h]; exact hexDigit_not_space _)

theorem bytesToHex_ne_nil (bs : List Nat) (h : bs ≠ []) : bytesToHex bs ≠ [] := by
  cases bs with
  | nil => exact absurd rfl h
  | cons b bs => simp [bytesToHex, byteToHex]

/-- Running `goFieldsAux` over a block of non-space characters accumulates the
block into the current field. -/
theorem goFieldsAux_accum : ∀ (w rest acc : List Char),
    (∀ c ∈ w, goIsSpace c = false) →
    goFieldsAux (w ++ rest) acc = goFieldsAux rest (w.reverse ++ acc) := by
  intro w
  induction w with
  | nil => intro rest acc _; simp
  | cons c w ih =>
    intro rest acc hw
    have hc : goIsSpace c = false := hw c (List.mem_cons_self c w)
    rw [List.cons_append, goFieldsAux, if_neg (by simp [hc])]
    rw [ih rest (c :: acc) (fun d hd => hw d (List.mem_cons_of_mem c hd))]
    simp

theorem goFieldsAux_flush (rest acc : List Char) (hacc : acc ≠ [])
    (hrest : rest = [] ∨ rest.head? = some ' ') :
    (goFieldsAux rest acc).head? = some acc.reverse := by
  rcases hrest with h | h
  · subst h
    rw [goFieldsAux, if_neg (by simpa using hacc)]
    rfl
  · cases rest with
    | nil => simp at h
    | cons c cs =>
      have hc : c = ' ' := by simpa using h
      subst hc
      rw [goFieldsAux, if_pos (by simp [goIsSpace]), if_neg (by simpa using hacc)]
      rfl

/-- The first field of a string that starts with a nonempty non-space block
followed by nothing or by a space is that block. -/
theorem goFields_head (w rest : List Char) (hw : w ≠ [])
    (hns : ∀ c ∈ w, goIsSpace c = false)
    (hrest : rest = [] ∨ rest.head? = some ' ') :
    (goFields (w ++ rest)).head? = some w := by
  rw [goFields, goFieldsAux_accum w rest [] hns]
  have := goFieldsAux_flush rest w.reverse (by simpa using hw) hrest
  simpa using this

/-- Right trim preserves a leading nonempty all-non-space block. -/
theorem trimRight_append (w rest : List Char) (_hw : w ≠ [])
    (hns : ∀ c ∈ w, goIsSpace c = false) :
    ((w ++ rest).reverse.dropWhile goIsSpace).reverse =
      w ++ (rest.reverse.dropWhile goIsSpace).reverse := by
  rw [List.reverse_append, List.dropWhile_append]
  have hwrev : w.reverse.dropWhile goIsSpace = w.reverse := by
    cases hrev : w.reverse with
    | nil => simp
    | cons c cs =>
      have hc : c ∈ w := by
        have : c ∈ w.reverse := by rw [hrev]; exact List.mem_cons_self c cs
        simpa using this
      rw [List.dropWhile_cons, hns c hc]
      simp
  by_cases hcase : (rest.reverse.dropWhile goIsSpace).isEmpty
  · rw [if_pos hcase, hwrev]
    rw [List.isEmpty_iff] at hcase
    rw [hcase]
    simp
  · rw [if_neg hcase, List.reverse_append]
    simp

/-- The right trim of a list is one of its prefixes, hence preserves the head. -/
theorem trimRight_head (l : List Char) :
    (l.reverse.dropWhile goIsSpace).reverse = [] ∨
    ((l.reverse.dropWhile goIsSpace).reverse).head? = l.head? := by
  have hsuf : l.reverse.dropWhile goIsSpace <:+ l.reverse := List.dropWhile_suffix _
  have hpre : (l.reverse.dropWhile goIsSpace).reverse <+: l := by
    have := List.reverse_prefix.mpr hsuf
    simpa using this
  cases hd : (l.reverse.dropWhile goIsSpace).reverse with
  | nil => exact Or.inl rfl
  | cons c cs =>
    right
    obtain ⟨t, ht⟩ := hpre
    rw [hd] at ht
    rw [← ht]
    rfl

/-- TrimSpace of a sidecar line: the digest block survives unchanged and what
follows it is empty or starts with a space. -/
theorem trimSpace_sidecar (w rest : List Char) (hw : w ≠ [])
    (hns : ∀ c ∈ w, goIsSpace c = false) (hsp : rest.head? = some ' ') :
    ∃ rest' : List Char, goTrimSpace (w ++ rest) = w ++ rest' ∧
      (rest' = [] ∨ rest'.head? = some ' ') := by
  have hdrop : (w ++ rest).dropWhile goIsSpace = w ++ rest := by
    cases w with
    | nil => exact absurd rfl hw
    | cons c cs =>
      rw [List.cons_append, List.dropWhile_cons,
        hns c (List.mem_cons_self c cs)]
      simp
  refine ⟨(rest.reverse.dropWhile goIsSpace).reverse, ?_, ?_⟩
  · rw [goTrimSpace, hdrop]
    exact trimRight_append w rest hw hns
  · rcases trimRight_head rest with h | h
    · exact Or.inl h
    · rcases heq : (rest.reverse.dropWhile goIsSpace).reverse with _ | ⟨c, cs⟩
      · exact Or.inl rfl
      · right
        rw [heq] at h
        rw [h]
        exact hsp

/-- The first whitespace-delimited token of a well-formed sidecar line is the
recorded digest, whatever the recorded file name is. -/
theorem sidecarLine_first_token (hexDigest base : List Char) (hne : hexDigest ≠ [])
    (hns : ∀ c ∈ hexDigest, goIsSpace c = false) :
    (goFields (goTrimSpace (sidecarLine hexDigest base))).head? = some hexDigest := by
  have hsp : (' ' :: ' ' :: (base ++ ['\n'])).head? = some ' ' := rfl
  obtain ⟨rest', heq, hrest'⟩ :=
    trimSpace_sidecar hexDigest (' ' :: ' ' :: (base ++ ['\n'])) hne hns hsp
  rw [sidecarLine, heq]
  exact goFields_head hexDigest rest' hne hns hrest'

theorem verify_file_some (hashFn : List Nat → List Nat) (content : List Nat)
    (sc tok : List Char) (rest : List (List Char))
    (hf : goFields (goTrimSpace sc) = tok :: rest) :
    verifySHA256File hashFn (.file content) (some sc) =
      (if generateSHA256 hashFn content = tok then .ok
       else .mismatch tok (generateSHA256 hashFn content)) := by
  simp only [verifySHA256File]
  rw [hf]

theorem verify_file_format (hashFn : List Nat → List Nat) (content : List Nat)
    (sc : List Char) (hf : goFields (goTrimSpace sc) = []) :
    verifySHA256File hashFn (.file content) (some sc) = .formatErr := by
  simp only [verifySHA256File]
  rw [hf]

/-- Claim C5: for a file whose bytes are unchanged between the two calls,
`verify` after `generate` succeeds: `generate` writes a sidecar holding the
lowercase hex digest, two spaces, and the base file name plus a newline, and
`verify` recomputes the digest and succeeds exactly when the recomputed hex
string equals (exactly, case-sensitively, as string equality) the recorded
digest token. The hypothesis states that the digest has at least one byte,
which holds for SHA-256 (32 bytes). -/
theorem C5_generate_verify_roundtrip (hashFn : List Nat → List Nat)
    (content : List Nat) (base : List Char) (h : hashFn content ≠ []) :
    generateSHA256File hashFn (.file content) base =
      some (sidecarLine (generateSHA256 hashFn content) base) ∧
    verifySHA256File hashFn (.file content)
      (some (sidecarLine (generateSHA256 hashFn content) base)) = .ok ∧
    (∀ (sc tok : List Char) (rest : List (List Char)),
      goFields (goTrimSpace sc) = tok :: rest →
      (verifySHA256File hashFn (.file content) (some sc) = .ok ↔
        generateSHA256 hashFn content = tok)) := by
  have hne : generateSHA256 hashFn content ≠ [] := bytesToHex_ne_nil _ h
  have hns := bytesToHex_not_space (hashFn content)
  refine ⟨rfl, ?_, ?_⟩
  · have htok := sidecarLine_first_token (generateSHA256 hashFn content) base hne hns
    rcases hfields : goFields (goTrimSpace
        (sidecarLine (generateSHA256 hashFn content) base)) with _ | ⟨tok, rest⟩
    · rw [hfields] at htok
      simp at htok
    · rw [hfields] at htok
      simp only [List.head?_cons, Option.some.injEq] at htok
      rw [verify_file_some hashFn content _ tok rest hfields, if_pos htok.symm]
  · intro sc tok rest hf
    rw [verify_file_some hashFn content sc tok rest hf]
    by_cases hcmp : generateSHA256 hashFn content = tok
    · simp [hcmp]
    · simp [hcmp]

theorem C5_generate_verify_roundtrip_witness :
    (fun _ : List Nat => [171]) [1, 2, 3] ≠ ([] : List Nat) ∧
    verifySHA256File (fun _ => [171]) (.file [1, 2, 3])
      (some (sidecarLine (generateSHA256 (fun _ => [171]) [1, 2, 3]) "a.txt".toList))
      = .ok :=
  ⟨by decide,
   (C5_generate_verify_roundtrip (fun _ => [171]) [1, 2, 3] "a.txt".toList
     (by decide)).2.1⟩

/-- Claim C6: the failure modes of `verify` are distinct: a missing sidecar
yields the sidecar-not-found result — distinct from a digest mismatch, and
independent of the digest function, so no digest is computed on that path; a
sidecar with no whitespace-delimited token yields the format error, never a
mismatch; and a mismatch result arises only when the recomputed digest differs
from the recorded first token. -/
theorem C6_verify_failure_modes :
    (∀ (hashFn : List Nat → List Nat) (content : List Nat),
        verifySHA256File hashFn (.file content) none = .sidecarNotFound) ∧
    (∀ e a : List Char, VerifyResult.sidecarNotFound ≠ VerifyResult.mismatch e a) ∧
    (∀ (hashFn : List Nat → List Nat) (content : List Nat) (sc : List Char),
        goFields (goTrimSpace sc) = [] →
        verifySHA256File hashFn (.file content) (some sc) = .formatErr) ∧
    (∀ e a : List Char, VerifyResult.formatErr ≠ VerifyResult.mismatch e a) ∧
    (∀ (hashFn : List Nat → List Nat) (content : List Nat) (sc e a : List Char),
        verifySHA256File hashFn (.file content) (some sc) = .mismatch e a →
        a = generateSHA256 hashFn content ∧ a ≠ e ∧
          (goFields (goTrimSpace sc)).head? = some e) := by
  refine ⟨fun _ _ => rfl, fun e a => by simp, ?_, fun e a => by simp, ?_⟩
  · intro hashFn content sc hf
    exact verify_file_format hashFn content sc hf
  · intro hashFn content sc e a hmis
    rcases hfields : goFields (goTrimSpace sc) with _ | ⟨tok, rest⟩
    · rw [verify_file_format hashFn content sc hfields] at hmis
      exact absurd hmis (by simp)
    · rw [verify_file_some hashFn content sc tok rest hfields] at hmis
      by_cases hcmp : generateSHA256 hashFn content = tok
      · rw [if_pos hcmp] at hmis
        exact absurd hmis (by simp)
      · rw [if_neg hcmp] at hmis
        obtain ⟨h1, h2⟩ := VerifyResult.mismatch.inj hmis
        subst h1
        subst h2
        exact ⟨rfl, hcmp, by simp [hfields]⟩

theorem C6_verify_failure_modes_witness :
    verifySHA256File (fun _ => [0]) (.file [5]) (some "   ".toList) = .formatErr ∧
    (verifySHA256File (fun _ => [0]) (.file [5]) (some "ff  f.txt".toList) =
        .mismatch "ff".toList "00".toList →
      "00".toList = generateSHA256 (fun _ => [0]) [5] ∧
      "00".toList ≠ "ff".toList ∧
      (goFields (goTrimSpace "ff  f.txt".toList)).head? = some "ff".toList) :=
  ⟨C6_verify_failure_modes.2.2.1 (fun _ => [0]) [5] "   ".toList (by decide),
   C6_verify_failure_modes.2.2.2.2 (fun _ => [0]) [5] "ff  f.txt".toList
     "ff".toList "00".toList⟩

/-- Claim C10: only the first whitespace-delimited token of the sidecar is
compared against the recomputed digest; the recorded file name and any later
tokens are ignored, so verification succeeds for every recorded name — in
particular for a name different from the file actually verified — as long as
the digest matches the first token. -/
theorem C10_recorded_filename_ignored (hashFn : List Nat → List Nat)
    (content : List Nat) (h : hashFn content ≠ []) :
    (∀ recordedName : List Char,
      verifySHA256File hashFn (.file content)
        (some (sidecarLine (generateSHA256 hashFn content) recordedName)) = .ok) ∧
    (∀ (sc tok : List Char) (rest : List (List Char)),
      goFields (goTrimSpace sc) = tok :: rest →
      verifySHA256File hashFn (.file content) (some sc) =
        (if generateSHA256 hashFn content = tok then .ok
         else .mismatch tok (generateSHA256 hashFn content))) := by
  have hne : generateSHA256 hashFn content ≠ [] := bytesToHex_ne_nil _ h
  have hns := bytesToHex_not_space (hashFn content)
  constructor
  · intro recordedName
    have htok := sidecarLine_first_token (generateSHA256 hashFn content)
      recordedName hne hns
    rcases hfields : goFields (goTrimSpace
        (sidecarLine (generateSHA256 hashFn content) recordedName)) with _ | ⟨tok, rest⟩
    · rw [hfields] at htok
      simp at htok
    · rw [hfields] at htok
      simp only [List.head?_cons, Option.some.injEq] at htok
      rw [verify_file_some hashFn content _ tok rest hfields, if_pos htok.symm]
  · intro sc tok rest hf
    exact verify_file_some hashFn content sc tok rest hf

theorem C10_recorded_filename_ignored_witness :
    (fun _ : List Nat => [171]) [7] ≠ ([] : List Nat) ∧
    verifySHA256File (fun _ => [171]) (.file [7])
      (some (sidecarLine (generateSHA256 (fun _ => [171]) [7]) "other.bin".toList))
      = .ok :=
  ⟨by decide,
   (C10_recorded_filename_ignored (fun _ => [171]) [7] (by decide)).1
     "other.bin".toList⟩

/-! ## Instrumentation: `SpeedTracker` and `ProgressReader` of
src/unnamed/part_000 (lines 59-144, identical in the archiver main.go) and
`ProgressTracker` of src/ltfs-verifier/main.go (lines 19-65).

`time.Now()` is modelled by an explicit `now : Int` millisecond timestamp
argument; the `float64` speed fields are modelled as `Rat` with exact division
(no claim depends on their values). The progress bar is modelled by its running
byte count. The `PauseController.WaitIfPaused` calls block without changing any
accounted state, so they have no effect in this sequential model. -/

/-- `SpeedTracker` (part_000 lines 59-66) without its mutex. -/
structure SpeedTracker where
  totalBytes : Int
  lastBytes : Int
  lastTime : Int
  currentSpeed : Rat

/-- `SpeedTracker.Update` (part_000 lines 74-90): add to totalBytes, and every
500 ms recompute the instantaneous speed and move the sample point. -/
def SpeedTracker.update (st : SpeedTracker) (bytes : Int) (now : Int) : SpeedTracker :=
  let st1 : SpeedTracker := { st with totalBytes := st.totalBytes + bytes }
  if now - st1.lastTime ≥ 500 then
    let elapsedSecs : Rat := ((now - st1.lastTime : Int) : Rat) / 1000
    let st2 : SpeedTracker :=
      if 0 < elapsedSecs then
        { st1 with currentSpeed := ((st1.totalBytes - st1.lastBytes : Int) : Rat) / elapsedSecs }
      else st1
    { st2 with lastBytes := st2.totalBytes, lastTime := now }
  else st1

/-- One read error condition: end of stream (`io.EOF`) or another error. -/
inductive ReadErr where
  | eof
  | fail
  deriving DecidableEq

/-- `ProgressReader.Read` (part_000 lines 128-144), given the wrapped reader's
result for this call: `chunk` is the filled prefix `p[:n]` and `err` the error
value returned alongside it. Produces the updated progress-bar count, the
updated speed tracker, and the `(n, err)` the caller sees. A `none` bar or
tracker models the corresponding nil field. -/
def progressRead (bar : Option Int) (st : Option SpeedTracker) (chunk : List Nat)
    (now : Int) (err : Option ReadErr) :
    Option Int × Option SpeedTracker × Nat × Option ReadErr :=
  let n := chunk.length
  if 0 < n then
    (bar.map (· + (n : Int)), st.map (fun s => s.update (n : Int) now), n, err)
  else
    (bar, st, n, err)

/-- `ProgressTracker` of the verifier (main.go lines 19-28). -/
structure ProgressTracker where
  totalBytes : Int
  processedBytes : Int
  startTime : Int
  lastUpdateTime : Int
  lastProcessedBytes : Int
  filename : List Char
  currentSpeed : Rat
  avgSpeed : Rat

/-- `ProgressTracker.reset` (main.go lines 30-39). -/
def ProgressTracker.reset (totalBytes : Int) (filename : List Char)
    (now : Int) : ProgressTracker :=
  ⟨totalBytes, 0, now, now, 0, filename, 0, 0⟩

/-- `ProgressTracker.update` (main.go lines 41-65): add `bytesRead` to
`processedBytes`; every 500 ms recompute the current and average speeds and
move the sample point (`displayProgress` is console output and tracked
nowhere). -/
def ProgressTracker.update (p : ProgressTracker) (bytesRead : Int)
    (now : Int) : ProgressTracker :=
  let p1 : ProgressTracker := { p with processedBytes := p.processedBytes + bytesRead }
  if now - p1.lastUpdateTime ≥ 500 then
    let bytesInInterval := p1.processedBytes - p1.lastProcessedBytes
    let timeInterval : Rat := ((now - p1.lastUpdateTime : Int) : Rat) / 1000
    let p2 : ProgressTracker :=
      if 0 < timeInterval then
        { p1 with currentSpeed := (bytesInInterval : Rat) / timeInterval }
      else p1
    let totalElapsed : Rat := ((now - p2.startTime : Int) : Rat) / 1000
    let p3 : ProgressTracker :=
      if 0 < totalElapsed then
        { p2 with avgSpeed := (p2.processedBytes : Rat) / totalElapsed }
      else p2
    { p3 with lastUpdateTime := now, lastProcessedBytes := p3.processedBytes }
  else p1

/-- One `file.Read(buffer)` outcome inside the `generateSHA256` loop: the bytes
delivered, the clock value the tracker update observes, and the error returned
with them. -/
structure ReadEv where
  chunk : List Nat
  now : Int
  err : Option ReadErr

/-- The read loop of `generateSHA256` (main.go lines 157-169) over a given
sequence of read outcomes: if `n > 0`, feed the chunk to the hash and the
tracker before looking at the error; then break on `io.EOF`, fail on any other
error, and keep reading otherwise. Returns the hashed byte stream and the final
tracker. (A well-formed outcome sequence ends with an `eof`; an exhausted list
is returned as-is.) -/
def genLoop (hashed : List Nat) (tr : ProgressTracker) :
    List ReadEv → Except Unit (List Nat × ProgressTracker)
  | [] => .ok (hashed, tr)
  | ev :: rest =>
    let hashed1 := if 0 < ev.chunk.length then hashed ++ ev.chunk else hashed
    let tr1 := if 0 < ev.chunk.length then tr.update ev.chunk.length ev.now else tr
    match ev.err with
    | some .eof => .ok (hashed1, tr1)
    | some .fail => .error ()
    | none => genLoop hashed1 tr1 rest

theorem ProgressTracker.update_processedBytes (p : ProgressTracker)
    (bytesRead now : Int) :
    (p.update bytesRead now).processedBytes = p.processedBytes + bytesRead := by
  simp only [ProgressTracker.update]
  split
  · split <;> split <;> rfl
  · rfl

theorem ProgressTracker.update_totalBytes (p : ProgressTracker)
    (bytesRead now : Int) :
    (p.update bytesRead now).totalBytes = p.totalBytes := by
  simp only [ProgressTracker.update]
  split
  · split <;> split <;> rfl
  · rfl

/-- Claim C8: whenever an instrumented read transfers `n > 0` bytes, the
progress-bar add of `n` and the speed-tracker update of `n` happen before the
call returns, even when the same underlying call also reports end-of-stream or
another error; in the digest read loop, a chunk delivered together with
`io.EOF` is likewise hashed and accounted before the loop breaks. -/
theorem C8_partial_progress_never_dropped :
    (∀ (bar : Int) (st : SpeedTracker) (chunk : List Nat) (now : Int)
        (err : Option ReadErr), chunk ≠ [] →
      progressRead (some bar) (some st) chunk now err =
        (some (bar + (chunk.length : Int)),
         some (st.update (chunk.length : Int) now), chunk.length, err)) ∧
    (∀ (hashed : List Nat) (tr : ProgressTracker) (chunk : List Nat) (now : Int)
        (rest : List ReadEv), chunk ≠ [] →
      genLoop hashed tr (⟨chunk, now, some .eof⟩ :: rest) =
        .ok (hashed ++ chunk, tr.update chunk.length now)) := by
  constructor
  · intro bar st chunk now err hne
    have hn : 0 < chunk.length := List.length_pos.mpr hne
    simp [progressRead, hn]
  · intro hashed tr chunk now rest hne
    have hn : 0 < chunk.length := List.length_pos.mpr hne
    simp [genLoop, hn]

theorem C8_partial_progress_never_dropped_witness :
    ([5, 6] : List Nat) ≠ [] ∧
    genLoop [1] (ProgressTracker.reset 4 [] 0) [⟨[5, 6], 100, some .eof⟩] =
      .ok ([1, 5, 6], (ProgressTracker.reset 4 [] 0).update 2 100) :=
  ⟨by decide,
   C8_partial_progress_never_dropped.2 [1] (ProgressTracker.reset 4 [] 0)
     [5, 6] 100 [] (by decide)⟩

/-- The tracker after a sequence of update events `(chunk, now)`, mirroring the
successive `tracker.update(int64(n))` calls of the read loop. -/
def runChunkUpdates (tr : ProgressTracker) : List (List Nat × Int) → ProgressTracker
  | [] => tr
  | (chunk, now) :: rest => runChunkUpdates (tr.update chunk.length now) rest

theorem runChunkUpdates_processedBytes (evs : List (List Nat × Int)) :
    ∀ tr : ProgressTracker,
    (runChunkUpdates tr evs).processedBytes =
      tr.processedBytes + (((evs.map Prod.fst).map List.length).sum : Int) := by
  induction evs with
  | nil => intro tr; simp [runChunkUpdates]
  | cons ev rest ih =>
    intro tr
    obtain ⟨chunk, now⟩ := ev
    rw [runChunkUpdates, ih, ProgressTracker.update_processedBytes]
    have hs : ((((chunk, now) :: rest).map Prod.fst).map List.length).sum
        = chunk.length + ((rest.map Prod.fst).map List.length).sum := by
      simp
    rw [hs]
    push_cast
    ring

/-- Claim C9: the processed-byte counter never decreases across an update with
a non-negative byte count, and in a session that first calls `reset` with the
file's total size and then feeds reads that in total deliver exactly the file's
bytes, `processedBytes` never exceeds `totalBytes` at any point of the
session. -/
theorem C9_processed_monotone_and_bounded :
    (∀ (tr : ProgressTracker) (b now : Int), 0 ≤ b →
      tr.processedBytes ≤ (tr.update b now).processedBytes) ∧
    (∀ (content : List Nat) (filename : List Char) (now0 : Int)
        (evs pre suf : List (List Nat × Int)),
      (evs.map Prod.fst).flatten = content →
      evs = pre ++ suf →
      (runChunkUpdates (ProgressTracker.reset (content.length : Int) filename now0)
          pre).processedBytes ≤
        (ProgressTracker.reset (content.length : Int) filename now0).totalBytes) := by
  constructor
  · intro tr b now hb
    rw [ProgressTracker.update_processedBytes]
    omega
  · intro content filename now0 evs pre suf hjoin hsplit
    subst hsplit
    have hlen := congrArg List.length hjoin
    rw [List.map_append, List.flatten_append, List.length_append,
      List.length_flatten] at hlen
    rw [runChunkUpdates_processedBytes]
    have h0 : (ProgressTracker.reset (content.length : Int) filename
        now0).processedBytes = 0 := rfl
    have h1 : (ProgressTracker.reset (content.length : Int) filename
        now0).totalBytes = (content.length : Int) := rfl
    rw [h0, h1]
    omega

theorem C9_processed_monotone_and_bounded_witness :
    (0 : Int) ≤ 2 ∧
    ([([1, 2], (50 : Int)), ([3], 60)].map Prod.fst).flatten = [1, 2, 3] ∧
    ([([1, 2], (50 : Int)), ([3], 60)] : List (List Nat × Int)) =
      [([1, 2], 50)] ++ [([3], 60)] ∧
    (ProgressTracker.reset 4 [] 0).processedBytes ≤
      ((ProgressTracker.reset 4 [] 0).update 2 50).processedBytes ∧
    (runChunkUpdates (ProgressTracker.reset (([1, 2, 3] : List Nat).length : Int) [] 0)
        [([1, 2], 50)]).processedBytes ≤
      (ProgressTracker.reset (([1, 2, 3] : List Nat).length : Int) [] 0).totalBytes :=
  ⟨by decide, by decide, by decide,
   C9_processed_monotone_and_bounded.1 (ProgressTracker.reset 4 [] 0) 2 50 (by decide),
   C9_processed_monotone_and_bounded.2 [1, 2, 3] [] 0
     [([1, 2], 50), ([3], 60)] [([1, 2], 50)] [([3], 60)] (by decide) (by decide)⟩

end Tape
